import Mathlib

/-!
Verification development for the company-evaluator batch orchestration script
(`src/main.py`).  The script splits a company list into fixed-size batches,
sends each batch to a text-generation API, parses the JSON embedded in the
response, accumulates the scored entities across batches with per-batch
checkpointing, and finally sorts the accumulated results descending by score.

Shallow embedding choices:
* A company record (`Entity`) carries the `company` and `about` strings used
  by the prompt builder.
* Parsed JSON values are modelled by `JValue` (numbers as `Int`; the scores
  the prompt requests are integers 0..100).
* The external completion call together with `analyze_batch`'s `try`/`except`
  block is abstracted as an outcome function
  `oracle : Nat → List Entity → Option JValue`: `none` means an exception was
  raised inside `analyze_batch` and caught there (the function logs the batch
  number and returns `None`); `some v` means the call succeeded and
  `json.loads` of the extracted text produced `v`.
* Python exceptions that escape the per-batch handler (`KeyError`,
  `TypeError`, `ValueError`) are modelled with `Except PyError`; `main`'s
  outer handler logs and re-raises, so an `Except.error` result models the
  run aborting.
* Observable side effects of the loop (log lines, file writes, the pacing
  sleep) are recorded as a trace of `Event`s.
* `sorted(..., key=lambda x: x['score'], reverse=True)` is a stable
  descending sort; it is embedded as key extraction (which can raise, in
  order, like Python's key calls) followed by a stable insertion sort on the
  (key, value) pairs, which has the same extensional behaviour.
-/

/-- One company record from the input file: a `company` name and an `about`
description (src/main.py reads these two fields of each input object). -/
structure Entity where
  company : String
  about : String
deriving DecidableEq

/-- Parsed JSON values as produced by `json.loads`.  Objects are association
lists of string keys. -/
inductive JValue where
  | null : JValue
  | bool (b : Bool) : JValue
  | num (n : Int) : JValue
  | str (s : String) : JValue
  | arr (items : List JValue) : JValue
  | obj (fields : List (String × JValue)) : JValue

/-- The Python exceptions the script can raise outside `analyze_batch`'s
handler. -/
inductive PyError where
  | keyError (key : String) : PyError
  | typeError : PyError
  | valueError : PyError
deriving DecidableEq

/-- Python truthiness of a parsed JSON value (`if result:` at
src/main.py:145). -/
def truthy : JValue → Bool
  | .null => false
  | .bool b => b
  | .num n => n != 0
  | .str s => s != ""
  | .arr items => !items.isEmpty
  | .obj fields => !fields.isEmpty

/-- Key lookup in a JSON object's field list (Python `dict` indexing on the
parsed object). -/
def getKey : List (String × JValue) → String → Option JValue
  | [], _ => none
  | (k, v) :: rest, key => if k = key then some v else getKey rest key

/-- Python subscript `v[key]`: a `KeyError` on a dict without the key, a
`TypeError` on non-dict values. -/
def getItem : JValue → String → Except PyError JValue
  | .obj fields, key =>
    match getKey fields key with
    | some v => .ok v
    | none => .error (.keyError key)
  | _, _ => .error .typeError

/-- Python `list.extend(x)`: iterating a JSON value.  Arrays yield their
items, strings their characters, dicts their keys; other values raise
`TypeError`. -/
def iterElems : JValue → Except PyError (List JValue)
  | .arr items => .ok items
  | .str s => .ok (s.data.map fun c => .str (String.mk [c]))
  | .obj fields => .ok (fields.map fun p => .str p.1)
  | _ => .error .typeError

/-- The results key the prompt asks the model to use and
`main` reads back (src/main.py:80,146). -/
def analysesKey : String := "analyses"

/-- A canonical well-formed batch response: a JSON object whose single
`"analyses"` key holds an array of scored entities. -/
def mkAnalyses (items : List JValue) : JValue := .obj [(analysesKey, .arr items)]

/-- The sort key `x['score']` (src/main.py:161): `KeyError`/`TypeError` as in
Python; a non-numeric score is modelled as the comparison `TypeError`. -/
def scoreKey (v : JValue) : Except PyError Int :=
  match getItem v "score" with
  | .error e => .error e
  | .ok (.num n) => .ok n
  | .ok _ => .error .typeError

/-- Total version of the sort key (defaulting to 0 on error); equal to the
real key on every value whose `scoreKey` succeeds. -/
def scoreD (v : JValue) : Int :=
  match scoreKey v with
  | .ok n => n
  | .error _ => 0

/-! ### Response extractor (src/main.py:36-41)

`extract_json_from_response` runs
`re.search(r'```json\n(.*?)\n```', text, re.DOTALL)`: the match starts at the
leftmost position where the pattern can match and, the inner group being
lazy, ends at the earliest possible closing fence; on a match it returns
group 1, otherwise the input unchanged.  Strings are modelled as `List Char`.
-/

/-- `matchesAt pat s` holds when `s` starts with `pat`. -/
def matchesAt : List Char → List Char → Bool
  | [], _ => true
  | _ :: _, [] => false
  | p :: ps, c :: cs => p == c && matchesAt ps cs

/-- Index of the leftmost occurrence of `pat` in the list, if any. -/
def findSub (pat : List Char) : List Char → Option Nat
  | [] => if matchesAt pat [] then some 0 else none
  | c :: s => if matchesAt pat (c :: s) then some 0 else (findSub pat s).map (· + 1)

/-- The opening fence the regex requires. -/
def jsonOpenFence : List Char := "```json\n".toList

/-- The closing fence the regex requires. -/
def jsonCloseFence : List Char := "\n```".toList

/-- `extract_json_from_response` (src/main.py:36-41): the inner text of the
first JSON-marked fenced block, or the input unchanged when there is none. -/
def extract_json_from_response (s : List Char) : List Char :=
  match findSub jsonOpenFence s with
  | none => s
  | some p =>
    match findSub jsonCloseFence (s.drop (p + jsonOpenFence.length)) with
    | none => s
    | some q => (s.drop (p + jsonOpenFence.length)).take q

/-- `pat` occurs in `s` at index `p`. -/
def occursAt (pat s : List Char) (p : Nat) : Prop :=
  (s.drop p).take pat.length = pat

instance (pat s : List Char) (p : Nat) : Decidable (occursAt pat s p) :=
  inferInstanceAs (Decidable ((s.drop p).take pat.length = pat))

/-! ### Result sink, CSV branch (src/main.py:56-63)

`csv.DictWriter(f, fieldnames=['company_name','score','explanation'])` with
the default `extrasaction='raise'`: a row dict containing a key outside the
field names raises `ValueError`; missing keys are filled with the default
`restval` `''`.  The sink's output is modelled as the header row plus the
projected rows. -/

/-- The fixed CSV column names (src/main.py:60). -/
def csvFieldnames : List String := ["company_name", "score", "explanation"]

/-- `csv.DictWriter._dict_to_list` for one row under the default
`extrasaction='raise'` and `restval=''`. -/
def dictToRow (fieldnames : List String) (row : List (String × JValue)) :
    Except PyError (List JValue) :=
  if (row.map Prod.fst).all (fun k => fieldnames.contains k) then
    .ok (fieldnames.map fun f => (getKey row f).getD (.str ""))
  else
    .error .valueError

/-- The CSV branch of `save_results` (src/main.py:56-63): header row plus one
projected row per record, or the `ValueError` `DictWriter` raises. -/
def save_results_csv (results : List (List (String × JValue))) :
    Except PyError (List String × List (List JValue)) :=
  match results.mapM (dictToRow csvFieldnames) with
  | .error e => .error e
  | .ok rows => .ok (csvFieldnames, rows)

/-! ### Final sort (src/main.py:161) -/

/-- Descending-by-first-component order on (score, value) pairs: `a` may stay
before `b` exactly when `b`'s key does not exceed `a`'s. -/
def pairGE (a b : Int × JValue) : Prop := b.1 ≤ a.1

instance : DecidableRel pairGE := fun a b => inferInstanceAs (Decidable (b.1 ≤ a.1))

instance : IsTotal (Int × JValue) pairGE := ⟨fun a b => le_total b.1 a.1⟩

instance : IsTrans (Int × JValue) pairGE := ⟨fun _ _ _ h1 h2 => le_trans h2 h1⟩

/-- Results decorated with their (total) sort keys. -/
def keyedScores (l : List JValue) : List (Int × JValue) :=
  l.map fun v => (scoreD v, v)

/-- Pure view of the final sort: decorate with keys, stable-sort descending,
undecorate. -/
def sortedByScoreDesc (l : List JValue) : List JValue :=
  (List.insertionSort pairGE (keyedScores l)).map Prod.snd

/-- Key extraction for the whole list, left to right, propagating the first
failing `x['score']` like Python's `sorted` key calls. -/
def keyResults : List JValue → Except PyError (List (Int × JValue))
  | [] => .ok []
  | v :: rest =>
    match scoreKey v with
    | .error e => .error e
    | .ok n =>
      match keyResults rest with
      | .error e => .error e
      | .ok ks => .ok ((n, v) :: ks)

/-- `sorted(all_results, key=lambda x: x['score'], reverse=True)`
(src/main.py:161): compute every key (first failure raises), then
stable-sort descending by key. -/
def finalSort (l : List JValue) : Except PyError (List JValue) :=
  match keyResults l with
  | .error e => .error e
  | .ok keyed => .ok ((List.insertionSort pairGE keyed).map Prod.snd)

/-! ### Orchestration loop (src/main.py:129-168) -/

/-- Observable side effects of the loop:
* `processing k b` — the "Processing batch k (n companies)" log line plus the
  `analyze_batch` invocation on batch contents `b` (src/main.py:140-143);
* `batchError k` — the "Error in batch k" log line emitted inside
  `analyze_batch`'s exception handler (src/main.py:104);
* `save results` — a `save_results` call rewriting the output file with
  `results` (src/main.py:149,162);
* `rateLimit tp cost` — `rate_limit_handler(batch_size, i+1)`
  (src/main.py:156-158): the estimated-cost log line for `tp` entities
  processed so far, followed by the fixed 2-second pacing sleep. -/
inductive Event where
  | processing (batchNum : Nat) (batch : List Entity) : Event
  | batchError (batchNum : Nat) : Event
  | save (results : List JValue) : Event
  | rateLimit (totalProcessed : Nat) (estimatedCost : ℚ) : Event

/-- The estimated cost logged by `rate_limit_handler` (src/main.py:45):
`(total_processed / batch_size) * 0.01`. -/
def rate_limit_handler (batch_size : Int) (total_processed : Nat) : ℚ :=
  ((total_processed : ℚ) / (batch_size : ℚ)) * (1 / 100)

/-- The loop's mutable state (src/main.py:130-132) plus the event trace. -/
structure LoopState where
  currentBatch : List Entity
  allResults : List JValue
  batchNum : Nat
  trace : List Event

/-- Processing of one full batch once the flush condition fires
(src/main.py:140-150): log, run `analyze_batch` (outcome given by `oracle`),
and if the outcome is truthy, extend `all_results` with `result['analyses']`
and checkpoint; a `None` outcome was already logged as a batch error and a
falsy outcome is skipped silently. -/
def flushOne (oracle : Nat → List Entity → Option JValue) (k : Nat)
    (res : List JValue) (b : List Entity) :
    Except PyError (List JValue × List Event) :=
  match oracle k b with
  | none => .ok (res, [.processing k b, .batchError k])
  | some v =>
    if truthy v then
      match getItem v analysesKey with
      | .error e => .error e
      | .ok a =>
        match iterElems a with
        | .error e => .error e
        | .ok items => .ok (res ++ items, [.processing k b, .save (res ++ items)])
    else .ok (res, [.processing k b])

/-- The body of `for i, company in enumerate(companies)`
(src/main.py:135-158): append to the current batch; when the batch reaches
`batch_size` or `i` is the last index, flush it and, unless `i` is the last
index, apply the pacing delay. -/
def stepCompany (B : Int) (N : Nat) (oracle : Nat → List Entity → Option JValue)
    (i : Nat) (st : LoopState) (c : Entity) : Except PyError LoopState :=
  if ((st.currentBatch ++ [c]).length : Int) = B ∨ i = N - 1 then
    match flushOne oracle st.batchNum st.allResults (st.currentBatch ++ [c]) with
    | .error e => .error e
    | .ok (res2, evs) =>
      .ok ⟨[], res2, st.batchNum + 1,
        st.trace ++
          (if i < N - 1 then
            evs ++ [Event.rateLimit (i + 1) (rate_limit_handler B (i + 1))]
          else evs)⟩
  else .ok ⟨st.currentBatch ++ [c], st.allResults, st.batchNum, st.trace⟩

/-- The enumerate loop itself, carrying the running index. -/
def loopGo (B : Int) (N : Nat) (oracle : Nat → List Entity → Option JValue) :
    Nat → LoopState → List Entity → Except PyError LoopState
  | _, st, [] => .ok st
  | i, st, c :: rest =>
    match stepCompany B N oracle i st c with
    | .error e => .error e
    | .ok st2 => loopGo B N oracle (i + 1) st2 rest

/-- The whole run of `main` after startup (src/main.py:129-168): the batch
loop, then the final descending sort and the final save.  An `Except.error`
models an exception reaching `main`'s outer handler, which logs it and
re-raises, aborting the run. -/
def mainRun (B : Int) (oracle : Nat → List Entity → Option JValue)
    (companies : List Entity) : Except PyError (List JValue × List Event) :=
  match loopGo B companies.length oracle 0 ⟨[], [], 1, []⟩ companies with
  | .error e => .error e
  | .ok st =>
    match finalSort st.allResults with
    | .error e => .error e
    | .ok sorted => .ok (sorted, st.trace ++ [.save sorted])

/-! ### Batch-level view of the loop

The company-at-a-time loop is proved equal to processing the chunk list one
batch at a time; the claims about batch structure are stated against this
view. -/

/-- Batch-at-a-time processing: flush each chunk in order and insert the
pacing event after every chunk except the last.  `k` is the 1-based batch
number and `done` the number of entities consumed before this chunk. -/
def processBatches (B : Int) (oracle : Nat → List Entity → Option JValue) :
    Nat → Nat → List JValue → List (List Entity) →
    Except PyError (List JValue × Nat × List Event)
  | k, _, res, [] => .ok (res, k, [])
  | k, done, res, b :: rest =>
    match flushOne oracle k res b with
    | .error e => .error e
    | .ok (res2, evs) =>
      match processBatches B oracle (k + 1) (done + b.length) res2 rest with
      | .error e => .error e
      | .ok (resF, kF, evsF) =>
        .ok (resF, kF,
          (if rest.isEmpty then evs
           else evs ++ [Event.rateLimit (done + b.length)
                          (rate_limit_handler B (done + b.length))]) ++ evsF)

/-- Fuel-driven chunking helper (the fuel is the list length, enough whenever
the chunk size is positive). -/
def chunksGo {α : Type} (B : Nat) : Nat → List α → List (List α)
  | _, [] => []
  | 0, l => [l]
  | f + 1, c :: rest => ((c :: rest).take B) :: chunksGo B f ((c :: rest).drop B)

/-- The contiguous chunks of `l` of size `B` (last chunk possibly smaller). -/
def chunksOf {α : Type} (B : Nat) (l : List α) : List (List α) :=
  chunksGo B l.length l

/-- Repack a batch-level result as the loop's final state. -/
def withState (tr : List Event) (r : Except PyError (List JValue × Nat × List Event)) :
    Except PyError LoopState :=
  match r with
  | .error e => .error e
  | .ok (res, k, evs) => .ok ⟨[], res, k, tr ++ evs⟩

/-! ### Trace projections used by the claims -/

/-- The batch-analysis invocations recorded in a trace: batch number and
batch contents. -/
def processingEvents : List Event → List (Nat × List Entity)
  | [] => []
  | .processing k b :: rest => (k, b) :: processingEvents rest
  | _ :: rest => processingEvents rest

/-- The per-batch error log lines recorded in a trace. -/
def errorEvents : List Event → List Nat
  | [] => []
  | .batchError k :: rest => k :: errorEvents rest
  | _ :: rest => errorEvents rest

/-- The contents of the `save_results` calls recorded in a trace, in order. -/
def saveEvents : List Event → List (List JValue)
  | [] => []
  | .save res :: rest => res :: saveEvents rest
  | _ :: rest => saveEvents rest

/-- The trace restricted to batch invocations and pacing events. -/
def pacingView : List Event → List Event
  | [] => []
  | .processing k b :: rest => .processing k b :: pacingView rest
  | .rateLimit tp c :: rest => .rateLimit tp c :: pacingView rest
  | _ :: rest => pacingView rest

/-- The expected pacing pattern for a chunk list: after every batch except
the last, one pacing event carrying the number of entities processed so far
and the estimated cost computed from it. -/
def pacingExpected (B : Int) : Nat → Nat → List (List Entity) → List Event
  | _, _, [] => []
  | _, k, [b] => [.processing k b]
  | done, k, b :: b2 :: rest =>
    .processing k b ::
      .rateLimit (done + b.length) (rate_limit_handler B (done + b.length)) ::
        pacingExpected B (done + b.length) (k + 1) (b2 :: rest)

/-- The analyses list of one batch outcome when it has the canonical
successful shape, `none` otherwise. -/
def outcomeOf (oracle : Nat → List Entity → Option JValue) (k : Nat)
    (b : List Entity) : Option (List JValue) :=
  match oracle k b with
  | some (.obj [(key, .arr items)]) => if key = analysesKey then some items else none
  | _ => none

/-- The outcomes of a chunk list, numbered from `k`. -/
def batchOutcomes (oracle : Nat → List Entity → Option JValue) :
    Nat → List (List Entity) → List (Option (List JValue))
  | _, [] => []
  | k, b :: rest => outcomeOf oracle k b :: batchOutcomes oracle (k + 1) rest

/-- The successive checkpoint contents: one entry per successful batch,
holding the concatenation of all successful batches so far. -/
def checkpointContents : List JValue → List (Option (List JValue)) → List (List JValue)
  | _, [] => []
  | acc, none :: rest => checkpointContents acc rest
  | acc, some items :: rest => (acc ++ items) :: checkpointContents (acc ++ items) rest

/-- The concatenation of all successful batches' results, in completion
order. -/
def successJoin : List (Option (List JValue)) → List JValue
  | [] => []
  | none :: rest => successJoin rest
  | some items :: rest => items ++ successJoin rest

/-- Chunks numbered from `k`. -/
def numberFrom : Nat → List (List Entity) → List (Nat × List Entity)
  | _, [] => []
  | k, b :: rest => (k, b) :: numberFrom (k + 1) rest

/-! ### Concrete values used by the claim witnesses -/

/-- A concrete company record. -/
def wEnt1 : Entity := ⟨"Acme", "builds rockets"⟩

/-- Another concrete company record. -/
def wEnt2 : Entity := ⟨"Globex", "does synergy"⟩

/-- A stub analyzer outcome that always fails (models a completion client
that always raises). -/
def wOracleNone : Nat → List Entity → Option JValue := fun _ _ => none

/-- One canonical scored entity. -/
def wScored : JValue :=
  .obj [("company_name", .str "Acme"), ("score", .num 42), ("explanation", .str "bien")]

/-- A stub analyzer outcome returning one canonical scored entity for every
batch. -/
def wOracleGood : Nat → List Entity → Option JValue := fun _ _ => some (mkAnalyses [wScored])

/-- A stub whose first batch parses to a truthy object without the expected
results key and whose later batches are well-formed. -/
def wOracleMissingKey : Nat → List Entity → Option JValue :=
  fun k _ => if k = 1 then some (.obj [("foo", .num 1)]) else some (mkAnalyses [wScored])

/-- A stub returning a falsy parsed value (an empty JSON object). -/
def wOracleFalsy : Nat → List Entity → Option JValue := fun _ _ => some (.obj [])

/-- A CSV record carrying exactly the three expected fields. -/
def wRecOK : List (String × JValue) :=
  [("company_name", .str "A"), ("score", .num 1), ("explanation", .str "e")]

/-- A CSV record carrying an extra fourth field. -/
def wRecExtra : List (String × JValue) :=
  [("company_name", .str "Acme"), ("score", .num 42), ("explanation", .str "ok"),
    ("extra", .num 1)]

/-! ### Lemmas about the response extractor -/

/-! ### Lemmas about the response extractor -/

theorem matchesAt_iff : ∀ (pat s : List Char), matchesAt pat s = true ↔ s.take pat.length = pat
  | [], s => by simp [matchesAt]
  | p :: ps, [] => by simp [matchesAt]
  | p :: ps, c :: cs => by
    rw [matchesAt, Bool.and_eq_true, beq_iff_eq, matchesAt_iff ps cs]
    constructor
    · rintro ⟨rfl, h⟩
      simp [List.take_succ_cons, h]
    · intro h
      simp only [List.length_cons, List.take_succ_cons] at h
      injection h with h1 h2
      exact ⟨h1.symm, h2⟩

theorem occursAt_cons_succ (pat : List Char) (c : Char) (s : List Char) (p : Nat) :
    occursAt pat (c :: s) (p + 1) ↔ occursAt pat s p := by
  simp [occursAt]

theorem occursAt_zero (pat s : List Char) : occursAt pat s 0 ↔ matchesAt pat s = true := by
  simp [occursAt, matchesAt_iff]

theorem findSub_some (pat : List Char) :
    ∀ (s : List Char) (p : Nat), findSub pat s = some p →
      occursAt pat s p ∧ ∀ q, q < p → ¬ occursAt pat s q
  | [], p => by
    intro h
    simp only [findSub] at h
    split at h
    · rename_i hm
      cases h
      refine ⟨(occursAt_zero pat []).2 hm, ?_⟩
      intro q hq; omega
    · exact absurd h (by simp)
  | c :: s, p => by
    intro h
    simp only [findSub] at h
    split at h
    · rename_i hm
      cases h
      refine ⟨(occursAt_zero pat (c :: s)).2 hm, ?_⟩
      intro q hq; omega
    · rename_i hm
      rcases Option.map_eq_some'.1 h with ⟨p', hp', rfl⟩
      rcases findSub_some pat s p' hp' with ⟨h1, h2⟩
      refine ⟨(occursAt_cons_succ pat c s p').2 h1, ?_⟩
      intro q hq
      match q with
      | 0 =>
        rw [occursAt_zero]
        simp [hm]
      | q + 1 =>
        rw [occursAt_cons_succ]
        exact h2 q (by omega)

theorem findSub_none (pat : List Char) (hpat : pat ≠ []) :
    ∀ (s : List Char), findSub pat s = none → ∀ q, ¬ occursAt pat s q
  | [], h => by
    intro q
    simp only [occursAt, List.drop_nil, List.take_nil]
    intro he
    exact hpat he.symm
  | c :: s, h => by
    intro q
    simp only [findSub] at h
    split at h
    · exact absurd h (by simp)
    · rename_i hm
      match q with
      | 0 =>
        rw [occursAt_zero]
        simp [hm]
      | q + 1 =>
        rw [occursAt_cons_succ]
        have hn : findSub pat s = none := by
          cases hfs : findSub pat s with
          | none => rfl
          | some v => rw [hfs] at h; exact absurd h (by simp)
        exact findSub_none pat hpat s hn q

theorem findSub_eq_some_of (pat : List Char) (hpat : pat ≠ []) (s : List Char) (p : Nat)
    (h1 : occursAt pat s p) (h2 : ∀ q, q < p → ¬ occursAt pat s q) :
    findSub pat s = some p := by
  cases hfs : findSub pat s with
  | none => exact absurd h1 (findSub_none pat hpat s hfs p)
  | some p' =>
    rcases findSub_some pat s p' hfs with ⟨h1', h2'⟩
    rcases Nat.lt_trichotomy p p' with hlt | heq | hgt
    · exact absurd h1 (h2' p hlt)
    · rw [heq]
    · exact absurd h1' (h2 p' hgt)

theorem occursAt_of_eq_append (pat a tail s : List Char) (hs : s = a ++ pat ++ tail) :
    occursAt pat s a.length := by
  subst hs
  simp [occursAt, List.append_assoc, List.drop_left, List.take_left]

theorem occursAt_decomp (pat s : List Char) (p : Nat) (h : occursAt pat s p) :
    s = s.take p ++ pat ++ s.drop (p + pat.length) := by
  conv_lhs => rw [← List.take_append_drop p s]
  rw [List.append_assoc]
  congr 1
  conv_lhs => rw [← List.take_append_drop pat.length (s.drop p)]
  rw [h, List.drop_drop, Nat.add_comm]

theorem occursAt_drop (pat s : List Char) (d q : Nat) :
    occursAt pat (s.drop d) q ↔ occursAt pat s (d + q) := by
  simp [occursAt, List.drop_drop, Nat.add_comm]

theorem double_decomp (pat1 pat2 s : List Char) (p q : Nat)
    (h1 : occursAt pat1 s p) (h2 : occursAt pat2 s q)
    (hpq : p + pat1.length ≤ q) :
    s = s.take p ++ pat1 ++ (s.drop (p + pat1.length)).take (q - (p + pat1.length))
        ++ pat2 ++ s.drop (q + pat2.length) := by
  have hd1 := occursAt_decomp pat1 s p h1
  have h2' : occursAt pat2 (s.drop (p + pat1.length)) (q - (p + pat1.length)) := by
    rw [occursAt_drop]
    have : p + pat1.length + (q - (p + pat1.length)) = q := by omega
    rw [this]
    exact h2
  have hd2 := occursAt_decomp pat2 (s.drop (p + pat1.length)) (q - (p + pat1.length)) h2'
  conv_lhs => rw [hd1]
  simp only [List.append_assoc]
  congr 2
  conv_lhs => rw [hd2]
  simp only [List.append_assoc, List.drop_drop]
  congr 3
  omega

theorem jsonOpenFence_ne_nil : jsonOpenFence ≠ [] := by decide

theorem jsonCloseFence_ne_nil : jsonCloseFence ≠ [] := by decide

/-- C3: if the input contains at least one JSON-marked fenced block, the
extractor returns exactly the inner text of the first such block (the one
with the leftmost opening fence and, from there, the earliest closing
fence), independent of surrounding prose and ignoring later blocks;
otherwise it returns the input unchanged. -/
theorem claim_C3 (s : List Char) :
    (¬ (∃ a b c, s = a ++ jsonOpenFence ++ b ++ jsonCloseFence ++ c) →
      extract_json_from_response s = s) ∧
    (∀ a inner c, s = a ++ jsonOpenFence ++ inner ++ jsonCloseFence ++ c →
      (∀ p, p < a.length → ¬ occursAt jsonOpenFence s p) →
      (∀ q, q < a.length + jsonOpenFence.length + inner.length →
        a.length + jsonOpenFence.length ≤ q → ¬ occursAt jsonCloseFence s q) →
      extract_json_from_response s = inner) := by
  constructor
  · intro hno
    cases hfo : findSub jsonOpenFence s with
    | none => simp only [extract_json_from_response, hfo]
    | some p =>
      cases hfc : findSub jsonCloseFence (s.drop (p + jsonOpenFence.length)) with
      | none => simp only [extract_json_from_response, hfo, hfc]
      | some q =>
        exfalso
        apply hno
        have h1 := (findSub_some _ _ _ hfo).1
        have h2 := (findSub_some _ _ _ hfc).1
        have h2' : occursAt jsonCloseFence s (p + jsonOpenFence.length + q) :=
          (occursAt_drop _ _ _ _).1 h2
        refine ⟨s.take p, (s.drop (p + jsonOpenFence.length)).take q,
          s.drop (p + jsonOpenFence.length + q + jsonCloseFence.length), ?_⟩
        have hdd := double_decomp jsonOpenFence jsonCloseFence s p
          (p + jsonOpenFence.length + q) h1 h2' (by omega)
        have harg : p + jsonOpenFence.length + q - (p + jsonOpenFence.length) = q := by omega
        rw [harg] at hdd
        exact hdd
  · intro a inner c hs hfo hfc
    have hOcc : occursAt jsonOpenFence s a.length := by
      apply occursAt_of_eq_append jsonOpenFence a (inner ++ jsonCloseFence ++ c) s
      simp only [hs, List.append_assoc]
    have hfind1 : findSub jsonOpenFence s = some a.length :=
      findSub_eq_some_of _ jsonOpenFence_ne_nil _ _ hOcc hfo
    have hdropEq : s.drop (a.length + jsonOpenFence.length) = inner ++ (jsonCloseFence ++ c) := by
      have : s = (a ++ jsonOpenFence) ++ (inner ++ (jsonCloseFence ++ c)) := by
        simp only [hs, List.append_assoc]
      rw [this]
      have hlen : a.length + jsonOpenFence.length = (a ++ jsonOpenFence).length := by
        simp [List.length_append]
      rw [hlen, List.drop_left]
    have hOcc2 : occursAt jsonCloseFence (s.drop (a.length + jsonOpenFence.length)) inner.length := by
      rw [hdropEq]
      exact occursAt_of_eq_append jsonCloseFence inner c _ (by simp [List.append_assoc])
    have hfind2 : findSub jsonCloseFence (s.drop (a.length + jsonOpenFence.length))
        = some inner.length := by
      apply findSub_eq_some_of _ jsonCloseFence_ne_nil _ _ hOcc2
      intro q hq
      rw [occursAt_drop]
      apply hfc
      · omega
      · omega
    simp only [extract_json_from_response, hfind1, hfind2]
    rw [hdropEq, List.take_left]

theorem claim_C3_witness :
    extract_json_from_response ("prose ```json\n[1,2]\n``` tail".toList) = "[1,2]".toList :=
  (claim_C3 ("prose ```json\n[1,2]\n``` tail".toList)).2
    ("prose ".toList) ("[1,2]".toList) (" tail".toList)
    (by decide) (by decide) (by decide)

/-! ### Lemmas about chunking -/

theorem chunksGo_fuel {α : Type} (B : Nat) (hB : 1 ≤ B) :
    ∀ (f : Nat) (l : List α), l.length ≤ f → chunksGo B f l = chunksGo B l.length l
  | 0, [] => by intro _; rfl
  | 0, c :: rest => by intro h; simp at h
  | f + 1, [] => by intro _; rfl
  | f + 1, c :: rest => by
    intro h
    simp only [List.length_cons] at h
    simp only [List.length_cons, chunksGo]
    congr 1
    have hd : ((c :: rest).drop B).length = rest.length + 1 - B := by
      simp [List.length_drop]
    rw [chunksGo_fuel B hB f ((c :: rest).drop B) (by rw [hd]; omega),
        chunksGo_fuel B hB rest.length ((c :: rest).drop B) (by rw [hd]; omega)]

theorem chunksOf_cons {α : Type} (B : Nat) (hB : 1 ≤ B) (c : α) (l : List α) :
    chunksOf B (c :: l) = ((c :: l).take B) :: chunksOf B ((c :: l).drop B) := by
  unfold chunksOf
  simp only [List.length_cons, chunksGo]
  congr 1
  apply chunksGo_fuel B hB
  simp only [List.length_drop, List.length_cons]
  omega

theorem chunksOf_nil {α : Type} (B : Nat) : chunksOf B ([] : List α) = [] := rfl

theorem chunksOf_ne_nil {α : Type} (B : Nat) (hB : 1 ≤ B) (l : List α) (hl : l ≠ []) :
    chunksOf B l ≠ [] := by
  cases l with
  | nil => exact absurd rfl hl
  | cons c rest => rw [chunksOf_cons B hB]; simp

theorem chunksOf_flatten {α : Type} (B : Nat) (hB : 1 ≤ B) :
    ∀ (f : Nat) (l : List α), l.length ≤ f → (chunksGo B f l).flatten = l
  | 0, [] => by intro _; rfl
  | 0, c :: rest => by intro h; simp at h
  | f + 1, [] => by intro _; rfl
  | f + 1, c :: rest => by
    intro h
    simp only [List.length_cons] at h
    simp only [chunksGo, List.flatten_cons]
    rw [chunksOf_flatten B hB f ((c :: rest).drop B)
      (by simp only [List.length_drop, List.length_cons]; omega)]
    exact List.take_append_drop B (c :: rest)

theorem chunksOf_sizes {α : Type} (B : Nat) (hB : 1 ≤ B) :
    ∀ (f : Nat) (l : List α), l.length ≤ f →
      (chunksGo B f l).map List.length =
        List.replicate (l.length / B) B ++
          (if l.length % B = 0 then [] else [l.length % B])
  | 0, [] => by intro _; simp [chunksGo]
  | 0, c :: rest => by intro h; simp at h
  | f + 1, [] => by intro _; simp [chunksGo]
  | f + 1, c :: rest => by
    intro h
    simp only [List.length_cons] at h
    simp only [chunksGo, List.map_cons]
    rw [chunksOf_sizes B hB f ((c :: rest).drop B)
      (by simp only [List.length_drop, List.length_cons]; omega)]
    simp only [List.length_take, List.length_drop, List.length_cons]
    by_cases hcase : B ≤ rest.length + 1
    · have hmin : min B (rest.length + 1) = B := by omega
      have hdiv : (rest.length + 1) / B = (rest.length + 1 - B) / B + 1 := by
        rw [Nat.div_eq, if_pos ⟨by omega, hcase⟩]
      have hmod : (rest.length + 1) % B = (rest.length + 1 - B) % B := by
        rw [Nat.mod_eq, if_pos ⟨by omega, hcase⟩]
      rw [hmin, hdiv, hmod, List.replicate_succ, List.cons_append]
    · push_neg at hcase
      have hmin : min B (rest.length + 1) = rest.length + 1 := by omega
      have hdiv : (rest.length + 1) / B = 0 := Nat.div_eq_of_lt hcase
      have hmod : (rest.length + 1) % B = rest.length + 1 := Nat.mod_eq_of_lt hcase
      have hdrop : rest.length + 1 - B = 0 := by omega
      rw [hmin, hdiv, hmod, hdrop]
      simp

theorem ceil_count (n B : Nat) (hB : 1 ≤ B) (hn : 1 ≤ n) :
    n / B + (if n % B = 0 then 0 else 1) = (n + B - 1) / B := by
  by_cases hmod : n % B = 0
  · rw [if_pos hmod]
    have hn' : B * (n / B) = n := by
      have hdm := Nat.div_add_mod n B
      rw [hmod] at hdm
      simpa using hdm
    have h2 : n + B - 1 = B * (n / B) + (B - 1) := by
      conv_lhs => rw [← hn']
      exact Nat.add_sub_assoc hB _
    rw [h2, Nat.mul_add_div (by omega : 0 < B), Nat.div_eq_of_lt (by omega : B - 1 < B)]
  · rw [if_neg hmod]
    have h2 : n + B - 1 = B * (n / B + 1) + (n % B - 1) := by
      have hmul : B * (n / B + 1) = B * (n / B) + B := Nat.mul_succ B (n / B)
      have hdm := Nat.div_add_mod n B
      have hr : 1 ≤ n % B := Nat.one_le_iff_ne_zero.2 hmod
      rw [hmul]
      omega
    rw [h2, Nat.mul_add_div (by omega : 0 < B),
      Nat.div_eq_of_lt (by
        have hrB : n % B < B := Nat.mod_lt n (by omega)
        omega : n % B - 1 < B)]

theorem chunksOf_length {α : Type} (B : Nat) (hB : 1 ≤ B) (l : List α) (hl : l ≠ []) :
    (chunksOf B l).length = (l.length + B - 1) / B := by
  have hs := chunksOf_sizes B hB l.length l (le_refl _)
  have h1 : (chunksOf B l).length = ((chunksOf B l).map List.length).length := by
    simp
  have hlen : (chunksOf B l).map List.length = (chunksGo B l.length l).map List.length := rfl
  rw [h1, hlen, hs]
  simp only [List.length_append, List.length_replicate]
  have hn : 1 ≤ l.length := by
    cases l with
    | nil => exact absurd rfl hl
    | cons c rest => simp
  rw [← ceil_count l.length B hB hn]
  by_cases hmod : l.length % B = 0 <;> simp [hmod]

/-! ### The company-at-a-time loop equals batch-at-a-time processing -/

theorem chunksOf_eq_of_ne_nil {α : Type} (B : Nat) (hB : 1 ≤ B) (l : List α) (hl : l ≠ []) :
    chunksOf B l = l.take B :: chunksOf B (l.drop B) := by
  cases l with
  | nil => exact absurd rfl hl
  | cons c rest => exact chunksOf_cons B hB c rest

theorem chunks_step {α : Type} (B : Nat) (hB : 1 ≤ B) (cb : List α) (c : α) (rest : List α)
    (hlt : cb.length < B) (h : cb.length + 1 = B ∨ rest = []) :
    chunksOf B (cb ++ c :: rest) = (cb ++ [c]) :: chunksOf B rest := by
  rw [chunksOf_eq_of_ne_nil B hB _ (by simp)]
  rcases h with h1 | h1
  · have hform : cb ++ c :: rest = (cb ++ [c]) ++ rest := by simp
    have hlen2 : (cb ++ [c]).length = B := by simp; omega
    rw [hform]
    congr 1
    · rw [← hlen2, List.take_left]
    · rw [← hlen2, List.drop_left]
  · subst h1
    have hform : cb ++ c :: ([] : List α) = cb ++ [c] := by simp
    have hlen2 : (cb ++ [c]).length ≤ B := by simp; omega
    rw [hform, List.take_of_length_le hlen2, List.drop_eq_nil_of_le hlen2, chunksOf_nil]

theorem loopGo_eq_processBatches (B : Nat) (hB : 1 ≤ B)
    (oracle : Nat → List Entity → Option JValue) :
    ∀ (l cb : List Entity) (res : List JValue) (k : Nat) (tr : List Event) (i N : Nat),
      cb.length < B → cb.length ≤ i → i + l.length = N → l ≠ [] →
      loopGo (B : Int) N oracle i ⟨cb, res, k, tr⟩ l =
        withState tr (processBatches (B : Int) oracle k (i - cb.length) res
          (chunksOf B (cb ++ l)))
  | [], cb, res, k, tr, i, N => by
    intro _ _ _ hne
    exact absurd rfl hne
  | c :: rest, cb, res, k, tr, i, N => by
    intro hlt hle hN _
    simp only [loopGo, stepCompany]
    by_cases hcond : ((cb ++ [c]).length : Int) = (B : Int) ∨ i = N - 1
    · rw [if_pos hcond]
      have hsplit : chunksOf B (cb ++ c :: rest) = (cb ++ [c]) :: chunksOf B rest := by
        apply chunks_step B hB cb c rest hlt
        rcases hcond with h1 | h1
        · left
          have : ((cb.length + 1 : Nat) : Int) = (B : Int) := by
            simpa using h1
          exact_mod_cast this
        · right
          cases rest with
          | nil => rfl
          | cons r rs =>
            exfalso
            simp only [List.length_cons] at hN
            omega
      rw [hsplit]
      simp only [processBatches]
      cases hF : flushOne oracle k res (cb ++ [c]) with
      | error e => simp [hF, withState]
      | ok p =>
        obtain ⟨res2, evs⟩ := p
        simp only [hF]
        cases rest with
        | nil =>
          have hiN : ¬ i < N - 1 := by
            simp only [List.length_cons, List.length_nil] at hN
            omega
          simp only [loopGo, chunksOf_nil, processBatches, withState, List.isEmpty_nil,
            if_true, if_neg hiN, List.append_nil]
        | cons r rs =>
          have hiN : i < N - 1 := by
            simp only [List.length_cons] at hN
            omega
          have hne2 : chunksOf B (r :: rs) ≠ [] := chunksOf_ne_nil B hB _ (by simp)
          have hEmpty : (chunksOf B (r :: rs)).isEmpty = false := by
            cases hc : chunksOf B (r :: rs) with
            | nil => exact absurd hc hne2
            | cons x xs => rfl
          have harg : (i - cb.length) + (cb ++ [c]).length = i + 1 := by
            simp only [List.length_append, List.length_cons, List.length_nil]
            omega
          rw [if_pos hiN]
          have hIH := loopGo_eq_processBatches B hB oracle (r :: rs) [] res2 (k + 1)
            (tr ++ (evs ++ [Event.rateLimit (i + 1) (rate_limit_handler (B : Int) (i + 1))]))
            (i + 1) N
            (by simpa using hB) (by simp) (by simp only [List.length_cons] at hN ⊢; omega)
            (by simp)
          simp only [List.nil_append, List.length_nil, Nat.sub_zero] at hIH
          rw [hIH, harg, hEmpty]
          simp only [Bool.false_eq_true, if_false]
          cases hP : processBatches (B : Int) oracle (k + 1) (i + 1) res2
              (chunksOf B (r :: rs)) with
          | error e => simp [withState]
          | ok q =>
            obtain ⟨resF, kF, evsF⟩ := q
            simp [withState, List.append_assoc]
    · rw [if_neg hcond]
      push_neg at hcond
      obtain ⟨hlen, hi⟩ := hcond
      have hrest : rest ≠ [] := by
        intro hr
        subst hr
        simp only [List.length_cons, List.length_nil] at hN
        omega
      have hne : cb.length + 1 ≠ B := by
        intro he
        apply hlen
        simp only [List.length_append, List.length_cons, List.length_nil]
        exact_mod_cast congrArg (Nat.cast : Nat → Int) he
      have hIH := loopGo_eq_processBatches B hB oracle rest (cb ++ [c]) res k tr (i + 1) N
        (by simp; omega) (by simp; omega)
        (by simp only [List.length_cons] at hN ⊢; omega) hrest
      dsimp only
      rw [hIH]
      have h1 : (i + 1) - (cb ++ [c]).length = i - cb.length := by
        simp only [List.length_append, List.length_cons, List.length_nil]
        omega
      have h2 : (cb ++ [c]) ++ rest = cb ++ c :: rest := by simp
      rw [h1, h2]

theorem loopGo_nonpos (B : Int) (hB : B ≤ 0) (oracle : Nat → List Entity → Option JValue) :
    ∀ (l cb : List Entity) (res : List JValue) (k : Nat) (tr : List Event) (i N : Nat),
      i + l.length = N → l ≠ [] →
      loopGo B N oracle i ⟨cb, res, k, tr⟩ l =
        (match flushOne oracle k res (cb ++ l) with
         | .error e => .error e
         | .ok (res2, evs) => .ok ⟨[], res2, k + 1, tr ++ evs⟩)
  | [], cb, res, k, tr, i, N => by
    intro _ hne
    exact absurd rfl hne
  | [c], cb, res, k, tr, i, N => by
    intro hN _
    simp only [List.length_cons, List.length_nil] at hN
    simp only [loopGo, stepCompany]
    have hcond : ((cb ++ [c]).length : Int) = B ∨ i = N - 1 := Or.inr (by omega)
    rw [if_pos hcond]
    have hiN : ¬ i < N - 1 := by omega
    simp only [if_neg hiN]
    cases hF : flushOne oracle k res (cb ++ [c]) with
    | error e => simp
    | ok p =>
      obtain ⟨res2, evs⟩ := p
      simp [loopGo]
  | c :: r :: rs, cb, res, k, tr, i, N => by
    intro hN _
    simp only [List.length_cons] at hN
    rw [loopGo, stepCompany]
    have h1 : ¬(((cb ++ [c]).length : Int) = B ∨ i = N - 1) := by
      push_neg
      constructor
      · intro he
        have hpos : 1 ≤ (cb ++ [c]).length := by simp
        have hpos' : (1 : Int) ≤ ((cb ++ [c]).length : Int) := by exact_mod_cast hpos
        omega
      · omega
    rw [if_neg h1]
    dsimp only
    rw [loopGo_nonpos B hB oracle (r :: rs) (cb ++ [c]) res k tr (i + 1) N
      (by simp only [List.length_cons]; omega) (by simp)]
    have h2 : (cb ++ [c]) ++ (r :: rs) = cb ++ c :: r :: rs := by simp
    rw [h2]

theorem mainRun_eq_batches (B : Nat) (hB : 1 ≤ B)
    (oracle : Nat → List Entity → Option JValue) (companies : List Entity)
    (hN : companies ≠ []) :
    mainRun (B : Int) oracle companies =
      (match processBatches (B : Int) oracle 1 0 [] (chunksOf B companies) with
       | .error e => .error e
       | .ok (resF, _, evs) =>
         match finalSort resF with
         | .error e => .error e
         | .ok sorted => .ok (sorted, evs ++ [.save sorted])) := by
  unfold mainRun
  rw [loopGo_eq_processBatches B hB oracle companies [] [] 1 [] 0 companies.length
    (by simpa using hB) (by simp) (by simp) hN]
  simp only [List.nil_append, List.length_nil, Nat.sub_zero]
  cases hP : processBatches (B : Int) oracle 1 0 [] (chunksOf B companies) with
  | error e => simp [withState]
  | ok q =>
    obtain ⟨resF, kF, evs⟩ := q
    simp only [withState]
    cases hS : finalSort resF with
    | error e => rfl
    | ok sorted => simp

/-! ### Trace projection lemmas -/

theorem processingEvents_append :
    ∀ (a b : List Event), processingEvents (a ++ b) = processingEvents a ++ processingEvents b
  | [], b => rfl
  | e :: rest, b => by
    cases e <;> simp [processingEvents, processingEvents_append rest b]

theorem errorEvents_append :
    ∀ (a b : List Event), errorEvents (a ++ b) = errorEvents a ++ errorEvents b
  | [], b => rfl
  | e :: rest, b => by
    cases e <;> simp [errorEvents, errorEvents_append rest b]

theorem saveEvents_append :
    ∀ (a b : List Event), saveEvents (a ++ b) = saveEvents a ++ saveEvents b
  | [], b => rfl
  | e :: rest, b => by
    cases e <;> simp [saveEvents, saveEvents_append rest b]

theorem pacingView_append :
    ∀ (a b : List Event), pacingView (a ++ b) = pacingView a ++ pacingView b
  | [], b => rfl
  | e :: rest, b => by
    cases e <;> simp [pacingView, pacingView_append rest b]

theorem flushOne_ok_events (oracle : Nat → List Entity → Option JValue) (k : Nat)
    (res : List JValue) (b : List Entity) (res2 : List JValue) (evs : List Event)
    (h : flushOne oracle k res b = .ok (res2, evs)) :
    evs = [.processing k b, .batchError k] ∨ evs = [.processing k b] ∨
      evs = [.processing k b, .save res2] := by
  unfold flushOne at h
  cases ho : oracle k b with
  | none =>
    rw [ho] at h
    simp only [Except.ok.injEq, Prod.mk.injEq] at h
    exact Or.inl h.2.symm
  | some v =>
    rw [ho] at h
    dsimp only at h
    by_cases ht : truthy v
    · rw [if_pos ht] at h
      cases hg : getItem v analysesKey with
      | error e => rw [hg] at h; simp at h
      | ok a =>
        rw [hg] at h
        dsimp only at h
        cases hi : iterElems a with
        | error e => rw [hi] at h; simp at h
        | ok items =>
          rw [hi] at h
          simp only [Except.ok.injEq, Prod.mk.injEq] at h
          refine Or.inr (Or.inr ?_)
          rw [← h.2, ← h.1]
    · rw [if_neg ht] at h
      simp only [Except.ok.injEq, Prod.mk.injEq] at h
      exact Or.inr (Or.inl h.2.symm)

theorem numberFrom_snd : ∀ (k : Nat) (chs : List (List Entity)),
    (numberFrom k chs).map Prod.snd = chs
  | _, [] => rfl
  | k, b :: rest => by simp [numberFrom, numberFrom_snd (k + 1) rest]

theorem numberFrom_fst : ∀ (k : Nat) (chs : List (List Entity)),
    (numberFrom k chs).map Prod.fst = List.range' k chs.length
  | _, [] => rfl
  | k, b :: rest => by
    simp only [numberFrom, List.map_cons, numberFrom_fst (k + 1) rest, List.length_cons]
    rw [List.range'_succ]

theorem numberFrom_length : ∀ (k : Nat) (chs : List (List Entity)),
    (numberFrom k chs).length = chs.length
  | _, [] => rfl
  | k, b :: rest => by simp [numberFrom, numberFrom_length (k + 1) rest]

theorem processBatches_processing (B : Int) (oracle : Nat → List Entity → Option JValue) :
    ∀ (chs : List (List Entity)) (k done : Nat) (res resF : List JValue) (kF : Nat)
      (evs : List Event),
      processBatches B oracle k done res chs = .ok (resF, kF, evs) →
      processingEvents evs = numberFrom k chs
  | [], k, done, res, resF, kF, evs => by
    intro h
    simp only [processBatches, Except.ok.injEq, Prod.mk.injEq] at h
    rw [← h.2.2]
    rfl
  | b :: rest, k, done, res, resF, kF, evs => by
    intro h
    simp only [processBatches] at h
    cases hF : flushOne oracle k res b with
    | error e => rw [hF] at h; simp at h
    | ok p =>
      obtain ⟨res2, evs0⟩ := p
      rw [hF] at h
      dsimp only at h
      cases hP : processBatches B oracle (k + 1) (done + b.length) res2 rest with
      | error e => rw [hP] at h; simp at h
      | ok q =>
        obtain ⟨rF, kF2, evsF⟩ := q
        rw [hP] at h
        simp only [Except.ok.injEq, Prod.mk.injEq] at h
        rw [← h.2.2, processingEvents_append]
        have hevs0 : processingEvents evs0 = [(k, b)] := by
          rcases flushOne_ok_events oracle k res b res2 evs0 hF with he | he | he <;>
            rw [he] <;> rfl
        have hone : processingEvents
            (if rest.isEmpty then evs0
             else evs0 ++ [Event.rateLimit (done + b.length)
                             (rate_limit_handler B (done + b.length))]) = [(k, b)] := by
          by_cases hr : rest.isEmpty
          · rw [if_pos hr]; exact hevs0
          · rw [if_neg hr, processingEvents_append, hevs0]; rfl
        rw [hone, processBatches_processing B oracle rest (k + 1) (done + b.length)
          res2 rF kF2 evsF hP]
        rfl

/-! ### C2: batch partitioning -/

/-- C2: for any completed run on a non-empty input with batch size at least
one, the loop feeds the analyzer exactly ceil(N/B) batches, which are the
contiguous chunks of the input in order: every batch except possibly the
last has size B and the last has size N mod B when that is non-zero,
otherwise B. -/
theorem claim_C2 (companies : List Entity) (B' : Nat)
    (oracle : Nat → List Entity → Option JValue) (res : List JValue) (tr : List Event)
    (hB : 1 ≤ B') (hN : companies ≠ [])
    (hrun : mainRun (B' : Int) oracle companies = .ok (res, tr)) :
    ((processingEvents tr).map Prod.snd).flatten = companies ∧
    (processingEvents tr).map (fun p => p.2.length) =
      List.replicate (companies.length / B') B' ++
        (if companies.length % B' = 0 then [] else [companies.length % B']) ∧
    (processingEvents tr).map Prod.fst =
      List.range' 1 ((companies.length + B' - 1) / B') ∧
    (processingEvents tr).length = (companies.length + B' - 1) / B' := by
  rw [mainRun_eq_batches B' hB oracle companies hN] at hrun
  cases hP : processBatches (B' : Int) oracle 1 0 [] (chunksOf B' companies) with
  | error e => rw [hP] at hrun; simp at hrun
  | ok q =>
    obtain ⟨resF, kF, evs⟩ := q
    rw [hP] at hrun
    dsimp only at hrun
    cases hS : finalSort resF with
    | error e => rw [hS] at hrun; simp at hrun
    | ok sorted =>
      rw [hS] at hrun
      dsimp only at hrun
      simp only [Except.ok.injEq, Prod.mk.injEq] at hrun
      obtain ⟨h1, h2⟩ := hrun
      have hproc := processBatches_processing (B' : Int) oracle
        (chunksOf B' companies) 1 0 [] resF kF evs hP
      have hPT : processingEvents tr = numberFrom 1 (chunksOf B' companies) := by
        rw [← h2, processingEvents_append, hproc]
        simp [processingEvents]
      have hflat : (chunksOf B' companies).flatten = companies :=
        chunksOf_flatten B' hB companies.length companies (le_refl _)
      have hsizes := chunksOf_sizes B' hB companies.length companies (le_refl _)
      have hlen := chunksOf_length B' hB companies hN
      refine ⟨?_, ?_, ?_, ?_⟩
      · rw [hPT, numberFrom_snd]
        exact hflat
      · rw [hPT]
        have hmm : (numberFrom 1 (chunksOf B' companies)).map (fun p => p.2.length) =
            ((numberFrom 1 (chunksOf B' companies)).map Prod.snd).map List.length := by
          simp [List.map_map, Function.comp]
        rw [hmm, numberFrom_snd]
        exact hsizes
      · rw [hPT, numberFrom_fst, hlen]
      · rw [hPT, numberFrom_length, hlen]

theorem claim_C2_witness :
    (processingEvents [Event.processing 1 [wEnt1, wEnt2], Event.batchError 1,
        Event.save ([] : List JValue)]).length =
      (([wEnt1, wEnt2] : List Entity).length + 5 - 1) / 5 :=
  (claim_C2 [wEnt1, wEnt2] 5 wOracleNone []
    [Event.processing 1 [wEnt1, wEnt2], Event.batchError 1, Event.save []]
    (by decide) (by simp) rfl).2.2.2

/-! ### C5: a run whose every batch fails still completes -/

theorem processBatches_allFail (B : Int) (oracle : Nat → List Entity → Option JValue)
    (hfail : ∀ k b, oracle k b = none) :
    ∀ (chs : List (List Entity)) (k done : Nat) (res : List JValue),
      ∃ evs, processBatches B oracle k done res chs = .ok (res, k + chs.length, evs) ∧
        errorEvents evs = List.range' k chs.length ∧
        saveEvents evs = []
  | [], k, done, res => ⟨[], rfl, rfl, rfl⟩
  | b :: rest, k, done, res => by
    have hFlush : flushOne oracle k res b =
        .ok (res, [.processing k b, .batchError k]) := by
      unfold flushOne
      rw [hfail k b]
    obtain ⟨evs, hP, hErr, hSave⟩ :=
      processBatches_allFail B oracle hfail rest (k + 1) (done + b.length) res
    refine ⟨(if rest.isEmpty then [Event.processing k b, Event.batchError k]
             else [Event.processing k b, Event.batchError k] ++
               [Event.rateLimit (done + b.length)
                 (rate_limit_handler B (done + b.length))]) ++ evs, ?_, ?_, ?_⟩
    · simp only [processBatches, hFlush, hP]
      simp only [Except.ok.injEq, Prod.mk.injEq, List.length_cons]
      exact ⟨trivial, by omega, trivial⟩
    · rw [errorEvents_append]
      have h1 : errorEvents (if rest.isEmpty
          then [Event.processing k b, Event.batchError k]
          else [Event.processing k b, Event.batchError k] ++
            [Event.rateLimit (done + b.length)
              (rate_limit_handler B (done + b.length))]) = [k] := by
        by_cases hr : rest.isEmpty <;> simp [hr, errorEvents, errorEvents_append]
      rw [h1, hErr]
      simp only [List.length_cons]
      rw [List.range'_succ]
      rfl
    · rw [saveEvents_append]
      have h2 : saveEvents (if rest.isEmpty
          then [Event.processing k b, Event.batchError k]
          else [Event.processing k b, Event.batchError k] ++
            [Event.rateLimit (done + b.length)
              (rate_limit_handler B (done + b.length))]) = [] := by
        by_cases hr : rest.isEmpty <;> simp [hr, saveEvents, saveEvents_append]
      rw [h2, hSave]
      rfl

/-- C5: when the analyzer fails (raises) on every batch, the run still
completes across all ceil(N/B) batches, the log holds exactly one batch
error per batch carrying its batch number, the final result list is empty,
and the only file write is the final one holding the empty result list. -/
theorem claim_C5 (companies : List Entity) (B' : Nat)
    (oracle : Nat → List Entity → Option JValue)
    (hB : 1 ≤ B') (hN : companies ≠ []) (hfail : ∀ k b, oracle k b = none) :
    ∃ tr, mainRun (B' : Int) oracle companies = .ok ([], tr) ∧
      errorEvents tr = List.range' 1 ((companies.length + B' - 1) / B') ∧
      saveEvents tr = [[]] ∧
      (processingEvents tr).length = (companies.length + B' - 1) / B' := by
  obtain ⟨evs, hP, hErr, hSave⟩ :=
    processBatches_allFail (B' : Int) oracle hfail (chunksOf B' companies) 1 0 []
  have hLen := chunksOf_length B' hB companies hN
  refine ⟨evs ++ [.save []], ?_, ?_, ?_, ?_⟩
  · rw [mainRun_eq_batches B' hB oracle companies hN, hP]
    rfl
  · rw [errorEvents_append, hErr, hLen]
    simp [errorEvents]
  · rw [saveEvents_append, hSave]
    rfl
  · have hproc := processBatches_processing (B' : Int) oracle
      (chunksOf B' companies) 1 0 [] [] (1 + (chunksOf B' companies).length) evs hP
    rw [processingEvents_append, hproc]
    simp [processingEvents, numberFrom_length, hLen]

theorem claim_C5_witness :
    ∃ tr, mainRun ((5 : Nat) : Int) wOracleNone [wEnt1, wEnt2] = .ok ([], tr) ∧
      errorEvents tr =
        List.range' 1 ((([wEnt1, wEnt2] : List Entity).length + 5 - 1) / 5) ∧
      saveEvents tr = [[]] ∧
      (processingEvents tr).length =
        (([wEnt1, wEnt2] : List Entity).length + 5 - 1) / 5 :=
  claim_C5 [wEnt1, wEnt2] 5 wOracleNone (by decide) (by simp) (fun _ _ => rfl)

/-! ### Lemmas about the final sort -/

theorem keyResults_ok : ∀ (l : List JValue), (∀ v ∈ l, ∃ n, scoreKey v = .ok n) →
    keyResults l = .ok (keyedScores l)
  | [] => fun _ => rfl
  | v :: rest => by
    intro h
    obtain ⟨n, hn⟩ := h v (by simp)
    simp only [keyResults, hn]
    rw [keyResults_ok rest (fun w hw => h w (by simp [hw]))]
    simp [keyedScores, scoreD, hn]

theorem finalSort_ok (l : List JValue) (h : ∀ v ∈ l, ∃ n, scoreKey v = .ok n) :
    finalSort l = .ok (sortedByScoreDesc l) := by
  unfold finalSort
  rw [keyResults_ok l h]
  rfl

theorem keyedScores_snd : ∀ (l : List JValue), (keyedScores l).map Prod.snd = l
  | [] => rfl
  | v :: rest => by
    have ih := keyedScores_snd rest
    simp only [keyedScores, List.map_cons] at ih ⊢
    rw [ih]

theorem mem_keyedScores (l : List JValue) (q : Int × JValue) (hq : q ∈ keyedScores l) :
    q.1 = scoreD q.2 := by
  simp only [keyedScores, List.mem_map] at hq
  obtain ⟨v, hv, rfl⟩ := hq
  rfl

theorem sortedByScoreDesc_perm (l : List JValue) : (sortedByScoreDesc l).Perm l := by
  unfold sortedByScoreDesc
  have hp := (List.perm_insertionSort pairGE (keyedScores l)).map Prod.snd
  rw [keyedScores_snd] at hp
  exact hp

theorem sortedByScoreDesc_pairwise (l : List JValue) :
    (sortedByScoreDesc l).Pairwise (fun a b => scoreD b ≤ scoreD a) := by
  unfold sortedByScoreDesc
  have hs := List.sorted_insertionSort pairGE (keyedScores l)
  rw [List.pairwise_map]
  apply List.Pairwise.imp_of_mem ?_ hs
  intro a b ha hb hr
  have ha' := mem_keyedScores l a
    (((List.perm_insertionSort pairGE (keyedScores l)).mem_iff).1 ha)
  have hb' := mem_keyedScores l b
    (((List.perm_insertionSort pairGE (keyedScores l)).mem_iff).1 hb)
  rw [← ha', ← hb']
  exact hr

theorem filter_orderedInsert_pos (s : Int) (x : Int × JValue) (hx : x.1 = s) :
    ∀ (l : List (Int × JValue)),
      (List.orderedInsert pairGE x l).filter (fun q => q.1 == s) =
        x :: l.filter (fun q => q.1 == s)
  | [] => by simp [List.orderedInsert, hx]
  | y :: ys => by
    by_cases hr : pairGE x y
    · simp only [List.orderedInsert, if_pos hr]
      rw [List.filter_cons_of_pos (by simp [hx])]
    · simp only [List.orderedInsert, if_neg hr]
      have hy : y.1 ≠ s := by
        intro he
        apply hr
        show y.1 ≤ x.1
        rw [he, hx]
      rw [List.filter_cons_of_neg (by simp [hy]),
        filter_orderedInsert_pos s x hx ys,
        List.filter_cons_of_neg (by simp [hy])]

theorem filter_orderedInsert_neg (s : Int) (x : Int × JValue) (hx : x.1 ≠ s) :
    ∀ (l : List (Int × JValue)),
      (List.orderedInsert pairGE x l).filter (fun q => q.1 == s) =
        l.filter (fun q => q.1 == s)
  | [] => by simp [List.orderedInsert, hx]
  | y :: ys => by
    by_cases hr : pairGE x y
    · simp only [List.orderedInsert, if_pos hr]
      rw [List.filter_cons_of_neg (by simp [hx])]
    · simp only [List.orderedInsert, if_neg hr]
      by_cases hy : y.1 = s
      · rw [List.filter_cons_of_pos (by simp [hy]),
          List.filter_cons_of_pos (by simp [hy]),
          filter_orderedInsert_neg s x hx ys]
      · rw [List.filter_cons_of_neg (by simp [hy]),
          List.filter_cons_of_neg (by simp [hy]),
          filter_orderedInsert_neg s x hx ys]

theorem filter_insertionSort (s : Int) :
    ∀ (l : List (Int × JValue)),
      (List.insertionSort pairGE l).filter (fun q => q.1 == s) =
        l.filter (fun q => q.1 == s)
  | [] => rfl
  | x :: xs => by
    simp only [List.insertionSort]
    by_cases hx : x.1 = s
    · rw [filter_orderedInsert_pos s x hx, filter_insertionSort s xs,
        List.filter_cons_of_pos (by simp [hx])]
    · rw [filter_orderedInsert_neg s x hx, filter_insertionSort s xs,
        List.filter_cons_of_neg (by simp [hx])]

theorem sortedByScoreDesc_stable (l : List JValue) (s : Int) :
    (sortedByScoreDesc l).filter (fun v => scoreD v == s) =
      l.filter (fun v => scoreD v == s) := by
  unfold sortedByScoreDesc
  rw [List.filter_map]
  have hcong : (List.insertionSort pairGE (keyedScores l)).filter
      ((fun v => scoreD v == s) ∘ Prod.snd) =
      (List.insertionSort pairGE (keyedScores l)).filter (fun q => q.1 == s) := by
    apply List.filter_congr
    intro q hq
    have hmem : q ∈ keyedScores l :=
      ((List.perm_insertionSort pairGE (keyedScores l)).mem_iff).1 hq
    have hq1 := mem_keyedScores l q hmem
    simp [Function.comp, ← hq1]
  rw [hcong, filter_insertionSort]
  conv_lhs => rw [keyedScores, List.filter_map]
  exact keyedScores_snd _

theorem sortedByScoreDesc_strict (l : List JValue) (hnd : (l.map scoreD).Nodup) :
    (sortedByScoreDesc l).Pairwise (fun a b => scoreD b < scoreD a) := by
  have hperm := sortedByScoreDesc_perm l
  have hpw := sortedByScoreDesc_pairwise l
  have hnd2 : ((sortedByScoreDesc l).map scoreD).Nodup :=
    ((hperm.map scoreD).symm).nodup hnd
  have hne : (sortedByScoreDesc l).Pairwise (fun a b => scoreD a ≠ scoreD b) := by
    rw [List.Nodup, List.pairwise_map] at hnd2
    exact hnd2
  apply (hpw.and hne).imp
  intro a b hab
  exact lt_of_le_of_ne hab.1 (fun he => hab.2 he.symm)

/-- C7: the final sorting step succeeds on every result list whose entries
carry a numeric score, and produces a permutation of the input that is
non-increasing in score, strictly decreasing when all scores are distinct,
and stable: entries with equal scores keep their relative input order. -/
theorem claim_C7 (l : List JValue) (h : ∀ v ∈ l, ∃ n, scoreKey v = .ok n) :
    ∃ out, finalSort l = .ok out ∧ out.Perm l ∧
      out.Pairwise (fun a b => scoreD b ≤ scoreD a) ∧
      (∀ s : Int, out.filter (fun v => scoreD v == s) =
        l.filter (fun v => scoreD v == s)) ∧
      ((l.map scoreD).Nodup → out.Pairwise (fun a b => scoreD b < scoreD a)) :=
  ⟨sortedByScoreDesc l, finalSort_ok l h, sortedByScoreDesc_perm l,
    sortedByScoreDesc_pairwise l, sortedByScoreDesc_stable l,
    fun hnd => sortedByScoreDesc_strict l hnd⟩

theorem claim_C7_witness :
    ∃ out, finalSort [wScored] = .ok out ∧ out.Perm [wScored] ∧
      out.Pairwise (fun a b => scoreD b ≤ scoreD a) ∧
      (∀ s : Int, out.filter (fun v => scoreD v == s) =
        ([wScored] : List JValue).filter (fun v => scoreD v == s)) ∧
      ((([wScored] : List JValue).map scoreD).Nodup →
        out.Pairwise (fun a b => scoreD b < scoreD a)) :=
  claim_C7 [wScored] (by
    intro v hv
    rw [List.mem_singleton] at hv
    subst hv
    exact ⟨42, rfl⟩)

/-! ### C8: pacing after every batch except the last -/

theorem processBatches_pacing (B : Int) (oracle : Nat → List Entity → Option JValue) :
    ∀ (chs : List (List Entity)) (k done : Nat) (res resF : List JValue) (kF : Nat)
      (evs : List Event),
      processBatches B oracle k done res chs = .ok (resF, kF, evs) →
      pacingView evs = pacingExpected B done k chs
  | [], k, done, res, resF, kF, evs => by
    intro h
    simp only [processBatches, Except.ok.injEq, Prod.mk.injEq] at h
    rw [← h.2.2]
    rfl
  | [b], k, done, res, resF, kF, evs => by
    intro h
    simp only [processBatches] at h
    cases hF : flushOne oracle k res b with
    | error e => rw [hF] at h; simp at h
    | ok p =>
      obtain ⟨res2, evs0⟩ := p
      rw [hF] at h
      dsimp only at h
      simp only [List.isEmpty_nil, if_true, List.append_nil,
        Except.ok.injEq, Prod.mk.injEq] at h
      rw [← h.2.2]
      rcases flushOne_ok_events oracle k res b res2 evs0 hF with he | he | he <;>
        rw [he] <;> rfl
  | b :: b2 :: rest, k, done, res, resF, kF, evs => by
    intro h
    rw [processBatches] at h
    cases hF : flushOne oracle k res b with
    | error e => rw [hF] at h; simp at h
    | ok p =>
      obtain ⟨res2, evs0⟩ := p
      rw [hF] at h
      dsimp only at h
      cases hP : processBatches B oracle (k + 1) (done + b.length) res2 (b2 :: rest) with
      | error e => rw [hP] at h; simp at h
      | ok q =>
        obtain ⟨rF, kF2, evsF⟩ := q
        rw [hP] at h
        dsimp only at h
        simp only [List.isEmpty_cons, Bool.false_eq_true, if_false,
          Except.ok.injEq, Prod.mk.injEq] at h
        rw [← h.2.2, pacingView_append, pacingView_append]
        have hone : pacingView evs0 = [Event.processing k b] := by
          rcases flushOne_ok_events oracle k res b res2 evs0 hF with he | he | he <;>
            rw [he] <;> rfl
        rw [hone,
          processBatches_pacing B oracle (b2 :: rest) (k + 1) (done + b.length)
            res2 rF kF2 evsF hP]
        rfl

/-- C8: in every completed run, the pacing delay together with its
estimated-cost log entry (cost computed from the number of entities
processed so far divided by the batch size, times the hardcoded 0.01 unit
cost) occurs exactly once after every batch except the last; no delay
follows the final batch. -/
theorem claim_C8 (companies : List Entity) (B' : Nat)
    (oracle : Nat → List Entity → Option JValue) (res : List JValue) (tr : List Event)
    (hB : 1 ≤ B') (hN : companies ≠ [])
    (hrun : mainRun (B' : Int) oracle companies = .ok (res, tr)) :
    pacingView tr = pacingExpected (B' : Int) 0 1 (chunksOf B' companies) := by
  rw [mainRun_eq_batches B' hB oracle companies hN] at hrun
  cases hP : processBatches (B' : Int) oracle 1 0 [] (chunksOf B' companies) with
  | error e => rw [hP] at hrun; simp at hrun
  | ok q =>
    obtain ⟨resF, kF, evs⟩ := q
    rw [hP] at hrun
    dsimp only at hrun
    cases hS : finalSort resF with
    | error e => rw [hS] at hrun; simp at hrun
    | ok sorted =>
      rw [hS] at hrun
      dsimp only at hrun
      simp only [Except.ok.injEq, Prod.mk.injEq] at hrun
      rw [← hrun.2, pacingView_append,
        processBatches_pacing (B' : Int) oracle (chunksOf B' companies) 1 0 [] resF kF evs hP]
      simp [pacingView]

theorem claim_C8_witness :
    pacingView [Event.processing 1 [wEnt1, wEnt2], Event.batchError 1,
        Event.save ([] : List JValue)] =
      pacingExpected ((5 : Nat) : Int) 0 1 (chunksOf 5 [wEnt1, wEnt2]) :=
  claim_C8 [wEnt1, wEnt2] 5 wOracleNone []
    [Event.processing 1 [wEnt1, wEnt2], Event.batchError 1, Event.save []]
    (by decide) (by simp) rfl

/-! ### C9: non-positive batch size yields a single batch -/

/-- C9: with a non-positive configured batch size, the run does not fail on
the batching itself: the flush condition `len(current_batch) == batch_size`
can never fire, so exactly one batch containing the entire entity list is
processed, when the last entity is reached (for any analyzer outcome that is
a failure or a canonical success). -/
theorem claim_C9 (companies : List Entity) (B : Int)
    (oracle : Nat → List Entity → Option JValue)
    (hN : companies ≠ []) (hB : B ≤ 0)
    (hout : oracle 1 companies = none ∨
      ∃ items, oracle 1 companies = some (mkAnalyses items) ∧
        ∀ v ∈ items, ∃ n, scoreKey v = .ok n) :
    ∃ res tr, mainRun B oracle companies = .ok (res, tr) ∧
      processingEvents tr = [(1, companies)] := by
  unfold mainRun
  rw [loopGo_nonpos B hB oracle companies [] [] 1 [] 0 companies.length (by simp) hN]
  simp only [List.nil_append]
  rcases hout with hcase | ⟨items, hOr, hScores⟩
  · have hf : flushOne oracle 1 [] companies =
        .ok ([], [.processing 1 companies, .batchError 1]) := by
      unfold flushOne
      rw [hcase]
    rw [hf]
    exact ⟨[], [Event.processing 1 companies, Event.batchError 1, Event.save []], rfl, rfl⟩
  · have hf : flushOne oracle 1 [] companies =
        .ok (items, [.processing 1 companies, .save items]) := by
      unfold flushOne
      rw [hOr]
      rfl
    rw [hf]
    refine ⟨sortedByScoreDesc items,
      [Event.processing 1 companies, Event.save items,
        Event.save (sortedByScoreDesc items)], ?_, rfl⟩
    dsimp only
    rw [finalSort_ok items hScores]
    rfl

theorem claim_C9_witness :
    ∃ res tr, mainRun (-3) wOracleNone [wEnt1, wEnt2] = .ok (res, tr) ∧
      processingEvents tr = [(1, [wEnt1, wEnt2])] :=
  claim_C9 [wEnt1, wEnt2] (-3) wOracleNone (by simp) (by decide) (Or.inl rfl)

/-! ### C10: a falsy parsed value is skipped like a failed batch -/

/-- C10: when a batch's response parses to a falsy JSON value (empty object,
empty array, null, zero, empty string, false), the batch is treated like a
failed batch as far as results are concerned: nothing is accumulated, no
checkpoint write happens for that batch, and processing continues with the
remaining batches. -/
theorem claim_C10 (B : Int) (oracle : Nat → List Entity → Option JValue)
    (k done : Nat) (res : List JValue) (b : List Entity)
    (rest : List (List Entity)) (v : JValue)
    (hv : oracle k b = some v) (hfalsy : truthy v = false) :
    flushOne oracle k res b = .ok (res, [Event.processing k b]) ∧
    processBatches B oracle k done res (b :: rest) =
      (match processBatches B oracle (k + 1) (done + b.length) res rest with
       | .error e => .error e
       | .ok (resF, kF, evsF) =>
         .ok (resF, kF,
           (if rest.isEmpty then [Event.processing k b]
            else [Event.processing k b,
              Event.rateLimit (done + b.length)
                (rate_limit_handler B (done + b.length))]) ++ evsF)) := by
  have hf : flushOne oracle k res b = .ok (res, [Event.processing k b]) := by
    unfold flushOne
    rw [hv]
    dsimp only
    rw [if_neg (by rw [hfalsy]; simp)]
  refine ⟨hf, ?_⟩
  rw [processBatches, hf]
  dsimp only
  cases hP : processBatches B oracle (k + 1) (done + b.length) res rest with
  | error e => rfl
  | ok q =>
    obtain ⟨resF, kF, evsF⟩ := q
    dsimp only
    by_cases hr : rest.isEmpty <;> simp [hr]

theorem claim_C10_witness :
    flushOne wOracleFalsy 1 [] [wEnt1] = .ok ([], [Event.processing 1 [wEnt1]]) :=
  (claim_C10 5 wOracleFalsy 1 0 [] [wEnt1] [] (.obj []) rfl rfl).1

/-! ### C1: a truthy response without the results key aborts the run -/

theorem claim_C1_counterexample :
    mainRun 1 wOracleMissingKey [wEnt1, wEnt2] = .error (.keyError analysesKey) := rfl

/-- C1 (amended): when a batch's call succeeds and its response parses as a
truthy JSON mapping that lacks the `'analyses'` key, the failure is NOT
handled at batch level: the subscript `result['analyses']` raises outside
`analyze_batch`'s handler, `main`'s outer handler logs it (without a batch
number) and re-raises, and the whole run aborts with that error — remaining
batches are never processed and no further results or saves happen.  (Shown
here for the first batch; a falsy mapping is instead skipped silently.) -/
theorem claim_C1 (companies : List Entity) (B' : Nat)
    (oracle : Nat → List Entity → Option JValue) (v : JValue) (err : PyError)
    (hN : companies ≠ []) (hB : 1 ≤ B')
    (hv : oracle 1 (companies.take B') = some v) (ht : truthy v = true)
    (hm : getItem v analysesKey = .error err) :
    mainRun (B' : Int) oracle companies = .error err := by
  rw [mainRun_eq_batches B' hB oracle companies hN]
  obtain ⟨c, rest, rfl⟩ : ∃ c rest, companies = c :: rest := by
    cases companies with
    | nil => exact absurd rfl hN
    | cons c rest => exact ⟨c, rest, rfl⟩
  rw [chunksOf_cons B' hB]
  have hf : flushOne oracle 1 [] ((c :: rest).take B') = .error err := by
    unfold flushOne
    rw [hv]
    dsimp only
    rw [if_pos ht, hm]
  rw [processBatches, hf]

theorem claim_C1_witness :
    mainRun ((1 : Nat) : Int) wOracleMissingKey [wEnt1, wEnt2] =
      .error (.keyError analysesKey) :=
  claim_C1 [wEnt1, wEnt2] 1 wOracleMissingKey (.obj [("foo", .num 1)])
    (.keyError analysesKey) (by simp) (by decide) rfl rfl rfl

/-! ### C6: checkpoint monotonicity -/

theorem processBatches_canon (B : Int) (oracle : Nat → List Entity → Option JValue)
    (hcanon : ∀ k b, oracle k b = none ∨
      ∃ items, oracle k b = some (mkAnalyses items) ∧
        ∀ v ∈ items, ∃ n, scoreKey v = .ok n) :
    ∀ (chs : List (List Entity)) (k done : Nat) (res : List JValue),
      (∀ v ∈ res, ∃ n, scoreKey v = .ok n) →
      ∃ evs kF, processBatches B oracle k done res chs =
          .ok (res ++ successJoin (batchOutcomes oracle k chs), kF, evs) ∧
        saveEvents evs = checkpointContents res (batchOutcomes oracle k chs) ∧
        (∀ v ∈ res ++ successJoin (batchOutcomes oracle k chs), ∃ n, scoreKey v = .ok n)
  | [], k, done, res => by
    intro hres
    refine ⟨[], k, ?_, rfl, ?_⟩
    · simp [processBatches, batchOutcomes, successJoin]
    · simpa [batchOutcomes, successJoin] using hres
  | b :: rest, k, done, res => by
    intro hres
    rcases hcanon k b with hnone | ⟨items, hsome, hitems⟩
    · have hf : flushOne oracle k res b =
          .ok (res, [.processing k b, .batchError k]) := by
        unfold flushOne
        rw [hnone]
      have hout : outcomeOf oracle k b = none := by
        unfold outcomeOf
        rw [hnone]
      obtain ⟨evs, kF, hP, hSave, hAll⟩ :=
        processBatches_canon B oracle hcanon rest (k + 1) (done + b.length) res hres
      refine ⟨(if rest.isEmpty then [Event.processing k b, Event.batchError k]
               else [Event.processing k b, Event.batchError k] ++
                 [Event.rateLimit (done + b.length)
                   (rate_limit_handler B (done + b.length))]) ++ evs, kF, ?_, ?_, ?_⟩
      · rw [processBatches, hf]
        dsimp only
        rw [hP]
        dsimp only
        simp only [batchOutcomes, hout, successJoin]
      · rw [saveEvents_append]
        have h1 : saveEvents (if rest.isEmpty
            then [Event.processing k b, Event.batchError k]
            else [Event.processing k b, Event.batchError k] ++
              [Event.rateLimit (done + b.length)
                (rate_limit_handler B (done + b.length))]) = [] := by
          by_cases hr : rest.isEmpty <;> simp [hr, saveEvents, saveEvents_append]
        rw [h1, hSave]
        simp only [batchOutcomes, hout, checkpointContents]
        rfl
      · intro v hv
        apply hAll
        simp only [batchOutcomes, hout, successJoin] at hv
        exact hv
    · have hf : flushOne oracle k res b =
          .ok (res ++ items, [.processing k b, .save (res ++ items)]) := by
        unfold flushOne
        rw [hsome]
        rfl
      have hout : outcomeOf oracle k b = some items := by
        unfold outcomeOf
        rw [hsome]
        rfl
      have hres2 : ∀ v ∈ res ++ items, ∃ n, scoreKey v = .ok n := by
        intro v hv
        rcases List.mem_append.1 hv with h | h
        · exact hres v h
        · exact hitems v h
      obtain ⟨evs, kF, hP, hSave, hAll⟩ :=
        processBatches_canon B oracle hcanon rest (k + 1) (done + b.length)
          (res ++ items) hres2
      refine ⟨(if rest.isEmpty
               then [Event.processing k b, Event.save (res ++ items)]
               else [Event.processing k b, Event.save (res ++ items)] ++
                 [Event.rateLimit (done + b.length)
                   (rate_limit_handler B (done + b.length))]) ++ evs, kF, ?_, ?_, ?_⟩
      · rw [processBatches, hf]
        dsimp only
        rw [hP]
        dsimp only
        simp only [batchOutcomes, hout, successJoin]
        rw [List.append_assoc]
      · rw [saveEvents_append]
        have h1 : saveEvents (if rest.isEmpty
            then [Event.processing k b, Event.save (res ++ items)]
            else [Event.processing k b, Event.save (res ++ items)] ++
              [Event.rateLimit (done + b.length)
                (rate_limit_handler B (done + b.length))]) = [res ++ items] := by
          by_cases hr : rest.isEmpty <;> simp [hr, saveEvents, saveEvents_append]
        rw [h1, hSave]
        simp only [batchOutcomes, hout, checkpointContents]
        rfl
      · intro v hv
        apply hAll
        simp only [batchOutcomes, hout, successJoin] at hv
        rw [List.append_assoc]
        exact hv

/-- C6: in a run whose batch outcomes are failures or canonical successes,
the sequence of file writes is exactly: one checkpoint per successful batch
holding the concatenation, in completion order and unsorted, of the results
of all successful batches so far, followed by a final write holding that
same collection sorted descending by score (the run's returned result). -/
theorem claim_C6 (companies : List Entity) (B' : Nat)
    (oracle : Nat → List Entity → Option JValue)
    (hB : 1 ≤ B') (hN : companies ≠ [])
    (hcanon : ∀ k b, oracle k b = none ∨
      ∃ items, oracle k b = some (mkAnalyses items) ∧
        ∀ v ∈ items, ∃ n, scoreKey v = .ok n) :
    ∃ tr, mainRun (B' : Int) oracle companies =
        .ok (sortedByScoreDesc
          (successJoin (batchOutcomes oracle 1 (chunksOf B' companies))), tr) ∧
      saveEvents tr =
        checkpointContents [] (batchOutcomes oracle 1 (chunksOf B' companies)) ++
          [sortedByScoreDesc
            (successJoin (batchOutcomes oracle 1 (chunksOf B' companies)))] := by
  obtain ⟨evs, kF, hP, hSave, hAll⟩ :=
    processBatches_canon (B' : Int) oracle hcanon (chunksOf B' companies) 1 0 [] (by simp)
  simp only [List.nil_append] at hP hAll
  refine ⟨evs ++ [.save (sortedByScoreDesc
    (successJoin (batchOutcomes oracle 1 (chunksOf B' companies))))], ?_, ?_⟩
  · rw [mainRun_eq_batches B' hB oracle companies hN, hP]
    dsimp only
    rw [finalSort_ok _ hAll]
  · rw [saveEvents_append, hSave]
    rfl

theorem claim_C6_witness :
    ∃ tr, mainRun ((1 : Nat) : Int) wOracleGood [wEnt1] =
        .ok (sortedByScoreDesc
          (successJoin (batchOutcomes wOracleGood 1 (chunksOf 1 [wEnt1]))), tr) ∧
      saveEvents tr =
        checkpointContents [] (batchOutcomes wOracleGood 1 (chunksOf 1 [wEnt1])) ++
          [sortedByScoreDesc
            (successJoin (batchOutcomes wOracleGood 1 (chunksOf 1 [wEnt1])))] :=
  claim_C6 [wEnt1] 1 wOracleGood (by decide) (by simp)
    (fun _ _ => Or.inr ⟨[wScored], rfl, by
      intro v hv
      rw [List.mem_singleton] at hv
      subst hv
      exact ⟨42, rfl⟩⟩)

/-! ### C4: the CSV sink and extra fields -/

theorem claim_C4_counterexample :
    save_results_csv [wRecExtra] = .error .valueError := rfl

theorem mapM_dictToRow :
    ∀ (results : List (List (String × JValue))),
      (∀ r ∈ results, ∀ kv ∈ r, csvFieldnames.contains kv.1 = true) →
      results.mapM (dictToRow csvFieldnames) =
        .ok (results.map (fun r => csvFieldnames.map
          (fun f => (getKey r f).getD (.str ""))))
  | [] => fun _ => rfl
  | r :: rs => by
    intro h
    have hrow : dictToRow csvFieldnames r =
        .ok (csvFieldnames.map (fun f => (getKey r f).getD (.str ""))) := by
      unfold dictToRow
      rw [if_pos ?_]
      rw [List.all_eq_true]
      intro k hk
      obtain ⟨kv, hkv, rfl⟩ := List.mem_map.1 hk
      exact h r (by simp) kv hkv
    rw [List.mapM_cons, hrow, mapM_dictToRow rs (fun r2 hr2 => h r2 (by simp [hr2]))]
    rfl

/-- C4 (amended): the CSV sink writes the header row plus one row per record
holding exactly the three named columns (company_name, score, explanation)
only when every record's keys lie within those three field names; a record
carrying any additional field makes the write fail with a `ValueError`
(`csv.DictWriter`'s default `extrasaction='raise'`) instead of being
truncated. -/
theorem claim_C4 (results : List (List (String × JValue)))
    (h : ∀ r ∈ results, ∀ kv ∈ r, csvFieldnames.contains kv.1 = true) :
    save_results_csv results =
      .ok (csvFieldnames, results.map (fun r => csvFieldnames.map
        (fun f => (getKey r f).getD (.str "")))) := by
  unfold save_results_csv
  rw [mapM_dictToRow results h]

theorem claim_C4_witness :
    save_results_csv [wRecOK] =
      .ok (csvFieldnames, ([wRecOK] : List (List (String × JValue))).map
        (fun r => csvFieldnames.map (fun f => (getKey r f).getD (.str "")))) :=
  claim_C4 [wRecOK] (by decide)
